import Mathlib

/-!
Verification of the bempp-rs KiFMM core against its specification.

The definitions below are shallow embeddings of the Rust sources:
  * `fmm/src/new_types.rs` and `fmm/src/field_translation.rs` (ncoeffs,
    s2t_scale, m2l_scale, the P2M operator),
  * `fmm/src/fmm.rs` (the upward/downward evaluation driver and `run`),
  * `tree/src/types/data.rs` (NodeData expansion accessors),
  * `tree/src/implementations/impl_multi_node.rs` (interaction lists).
Machine floats are modelled by exact rationals: every quantity the claims
mention is produced by ring operations only, so the rational model agrees
with the float code on the algebraic structure the claims describe.
The Morton-key primitives (`parent`, `children`, `neighbors`,
`is_adjacent`) live in `impl_morton.rs`, which is not among the provided
sources; they are modelled from the specification text, as marked.
-/

/-- Embedding of `ncoeffs` from `fmm/src/new_types.rs` (also
`KiFmm::ncoeffs` in `fmm/src/laplace.rs`): the number of coefficients of
an expansion of a given order. -/
def ncoeffs (expansion_order : ℕ) : ℕ :=
  6 * (expansion_order - 1) ^ 2 + 2

/-- Embedding of `m2l_scale` from `fmm/src/field_translation.rs` (both the
SVD and the FFT impl blocks share this body).  The Rust function panics for
`level < 2`; the panic is modelled by `none`. -/
def m2l_scale (level : ℕ) : Option ℚ :=
  if level < 2 then none
  else if level = 2 then some (1 / 2)
  else some (2 ^ (level - 3))

/-- Embedding of `s2t_scale` from `fmm/src/new_types.rs` (both the FFT and
the SVD `SourceToTargetHomogenousScaleInvariant` impl blocks share this
body).  The Rust function panics for `level < 2`; the panic is modelled by
`none`. -/
def s2t_scale (level : ℕ) : Option ℚ :=
  if level < 2 then none
  else if level = 2 then some (1 / 2)
  else some (2 ^ (level - 3))

/-- The grid points on the surface of a `p × p × p` cube of grid points:
triples in `[0,p)³` with some coordinate on a face.  This is the index set
that `compute_surface` enumerates. -/
def surfaceGrid (p : ℕ) : Finset (ℕ × ℕ × ℕ) :=
  (Finset.range p ×ˢ Finset.range p ×ˢ Finset.range p).filter
    (fun t => t.1 = 0 ∨ t.1 = p - 1 ∨ t.2.1 = 0 ∨ t.2.1 = p - 1 ∨
      t.2.2 = 0 ∨ t.2.2 = p - 1)

/-- The interior grid points of the same cube. -/
def interiorGrid (p : ℕ) : Finset (ℕ × ℕ × ℕ) :=
  (Finset.range p ×ˢ Finset.range p ×ˢ Finset.range p).filter
    (fun t => ¬(t.1 = 0 ∨ t.1 = p - 1 ∨ t.2.1 = 0 ∨ t.2.1 = p - 1 ∨
      t.2.2 = 0 ∨ t.2.2 = p - 1))

lemma interiorGrid_card (p : ℕ) (hp : 2 ≤ p) :
    (interiorGrid p).card = (p - 2) ^ 3 := by
  obtain ⟨m, rfl⟩ : ∃ m, p = m + 2 := ⟨p - 2, by omega⟩
  have hline : (Finset.range (m + 2)).filter
      (fun i => ¬(i = 0 ∨ i = m + 2 - 1)) = Finset.Ico 1 (m + 1) := by
    ext i
    simp only [Finset.mem_filter, Finset.mem_range, Finset.mem_Ico]
    omega
  have hsplit : interiorGrid (m + 2) =
      ((Finset.range (m + 2)).filter (fun i => ¬(i = 0 ∨ i = m + 2 - 1))) ×ˢ
      (((Finset.range (m + 2)).filter (fun i => ¬(i = 0 ∨ i = m + 2 - 1))) ×ˢ
        ((Finset.range (m + 2)).filter (fun i => ¬(i = 0 ∨ i = m + 2 - 1)))) := by
    ext t
    simp only [interiorGrid, Finset.mem_filter, Finset.mem_product]
    tauto
  rw [hsplit, hline]
  have hm : m + 1 - 1 = m := by omega
  have hm2 : m + 2 - 2 = m := by omega
  simp only [Finset.card_product, Nat.card_Ico, hm, hm2]
  ring

lemma surfaceGrid_card (p : ℕ) (hp : 2 ≤ p) :
    (surfaceGrid p).card = p ^ 3 - (p - 2) ^ 3 := by
  have hc : (Finset.range p ×ˢ Finset.range p ×ˢ Finset.range p).card = p ^ 3 := by
    simp only [Finset.card_product, Finset.card_range]
    ring
  have htotal : (surfaceGrid p).card + (interiorGrid p).card = p ^ 3 := by
    rw [surfaceGrid, interiorGrid, ← hc]
    exact Finset.filter_card_add_filter_neg_card_eq_card _
  have hle : (p - 2) ^ 3 ≤ p ^ 3 := Nat.pow_le_pow_left (by omega) 3
  rw [interiorGrid_card p hp] at htotal
  omega

/-- Model of `NodeData` from `tree/src/types/data.rs`. -/
structure NodeData where
  field_size : List ℕ
  data : List ℚ
  displacement : List ℕ
deriving DecidableEq, Repr

/-- Embedding of `NodeData::get_multipole_expansion` from
`tree/src/types/data.rs`: the slice
`data[displacement[0]..displacement[1]]`.  An out-of-bounds index or an
invalid slice range panics in Rust; this is modelled by `none`. -/
def get_multipole_expansion (n : NodeData) : Option (List ℚ) :=
  match n.displacement[0]?, n.displacement[1]? with
  | some d0, some d1 =>
      if d0 ≤ d1 ∧ d1 ≤ n.data.length then
        some ((n.data.drop d0).take (d1 - d0))
      else none
  | _, _ => none

/-- Embedding of `NodeData::get_local_expansion` from
`tree/src/types/data.rs`: its body is literally the same slice
`data[displacement[0]..displacement[1]]` as the multipole accessor. -/
def get_local_expansion (n : NodeData) : Option (List ℚ) :=
  match n.displacement[0]?, n.displacement[1]? with
  | some d0, some d1 =>
      if d0 ≤ d1 ∧ d1 ≤ n.data.length then
        some ((n.data.drop d0).take (d1 - d0))
      else none
  | _, _ => none

/-- Embedding of `NodeData::set_multipole_expansion` from
`tree/src/types/data.rs`.  The body splits the *input* slice at
`displacement[1]` and rebinds a local variable, mutating nothing; the
only observable effects are the potential panics of `displacement[1]`
indexing and `split_at`, modelled by `none`.  On success it returns the
unchanged receiver. -/
def set_multipole_expansion (n : NodeData) (v : List ℚ) : Option NodeData :=
  match n.displacement[1]? with
  | some d1 => if d1 ≤ v.length then some n else none
  | none => none

/-- Embedding of `NodeData::set_local_expansion` from
`tree/src/types/data.rs`; same no-op body as the multipole setter. -/
def set_local_expansion (n : NodeData) (v : List ℚ) : Option NodeData :=
  match n.displacement[1]? with
  | some d1 => if d1 ≤ v.length then some n else none
  | none => none

/-- C4: for every level `L ≥ 2` the M2L scaling factor `m2l_scale L`
(also exposed as `s2t_scale L`) is `1/2` at `L = 2` and `2^(L-3)` for
`L > 2`. -/
theorem m2l_scale_spec (L : ℕ) (hL : 2 ≤ L) :
    m2l_scale L = some (if L = 2 then 1 / 2 else 2 ^ (L - 3)) ∧
    s2t_scale L = m2l_scale L := by
  constructor
  · by_cases h2 : L = 2 <;> simp [m2l_scale, h2, Nat.not_lt.mpr hL]
  · rfl

theorem m2l_scale_spec_witness :
    m2l_scale 5 = some (if 5 = 2 then 1 / 2 else 2 ^ (5 - 3)) ∧
    s2t_scale 5 = m2l_scale 5 :=
  m2l_scale_spec 5 (by decide)

/-- C7: for every order `p ≥ 2`, `ncoeffs p = 6(p-1)² + 2`, and this value
equals `p³ - (p-2)³`, the number of grid points on the surface of a
`p × p × p` cube with the interior removed. -/
theorem ncoeffs_spec (p : ℕ) (hp : 2 ≤ p) :
    ncoeffs p = 6 * (p - 1) ^ 2 + 2 ∧
    ncoeffs p = p ^ 3 - (p - 2) ^ 3 ∧
    ncoeffs p = (surfaceGrid p).card := by
  obtain ⟨m, rfl⟩ : ∃ m, p = m + 2 := ⟨p - 2, by omega⟩
  have h21 : m + 2 - 1 = m + 1 := by omega
  have h22 : m + 2 - 2 = m := by omega
  have hcube : (m + 2) ^ 3 = m ^ 3 + (6 * (m + 1) ^ 2 + 2) := by ring
  refine ⟨rfl, ?_, ?_⟩
  · simp only [ncoeffs, h21, h22]
    omega
  · rw [surfaceGrid_card (m + 2) (by omega)]
    simp only [ncoeffs, h21, h22]
    omega

theorem ncoeffs_spec_witness :
    ncoeffs 3 = 6 * (3 - 1) ^ 2 + 2 ∧
    ncoeffs 3 = 3 ^ 3 - (3 - 2) ^ 3 ∧
    ncoeffs 3 = (surfaceGrid 3).card :=
  ncoeffs_spec 3 (by decide)

/-- C9: whenever the data buffer is long enough for the shared slice
range, `get_multipole_expansion` and `get_local_expansion` return the
identical vector, namely `data[displacement[0]..displacement[1]]`. -/
theorem expansions_share_storage (n : NodeData) (d0 d1 : ℕ)
    (h0 : n.displacement[0]? = some d0)
    (h1 : n.displacement[1]? = some d1)
    (hle : d0 ≤ d1) (hlen : d1 ≤ n.data.length) :
    get_multipole_expansion n = get_local_expansion n ∧
    get_multipole_expansion n = some ((n.data.drop d0).take (d1 - d0)) := by
  refine ⟨rfl, ?_⟩
  simp [get_multipole_expansion, h0, h1, hle, hlen]

theorem expansions_share_storage_witness :
    get_multipole_expansion ⟨[2, 2], [5, 7, 9], [0, 2]⟩ =
      get_local_expansion ⟨[2, 2], [5, 7, 9], [0, 2]⟩ ∧
    get_multipole_expansion ⟨[2, 2], [5, 7, 9], [0, 2]⟩ =
      some (([(5 : ℚ), 7, 9].drop 0).take (2 - 0)) :=
  expansions_share_storage ⟨[2, 2], [5, 7, 9], [0, 2]⟩ 0 2
    (by decide) (by decide) (by decide) (by decide)

/-- C10: setting the multipole or the local expansion with a coefficient
vector at least `displacement[1]` long succeeds and leaves every field of
the receiver unchanged: the setters are no-ops. -/
theorem setters_are_noops (n : NodeData) (v : List ℚ) (d1 : ℕ)
    (h1 : n.displacement[1]? = some d1) (hlen : d1 ≤ v.length) :
    set_multipole_expansion n v = some n ∧
    set_local_expansion n v = some n := by
  constructor <;> simp [set_multipole_expansion, set_local_expansion, h1, hlen]

theorem setters_are_noops_witness :
    set_multipole_expansion ⟨[2, 2], [5, 7, 9], [0, 2]⟩ [1, 2, 3] =
      some ⟨[2, 2], [5, 7, 9], [0, 2]⟩ ∧
    set_local_expansion ⟨[2, 2], [5, 7, 9], [0, 2]⟩ [1, 2, 3] =
      some ⟨[2, 2], [5, 7, 9], [0, 2]⟩ :=
  setters_are_noops ⟨[2, 2], [5, 7, 9], [0, 2]⟩ [1, 2, 3] 2
    (by decide) (by decide)

/-- Atomic operator invocations of the FMM evaluation driver
(`fmm/src/fmm.rs`).  Per-level operators carry their level. -/
inductive FmmOp where
  | p2m : FmmOp
  | m2m : ℕ → FmmOp
  | l2l : ℕ → FmmOp
  | p2l : ℕ → FmmOp
  | m2l : ℕ → FmmOp
  | m2p : FmmOp
  | p2p : FmmOp
  | l2p : FmmOp
deriving DecidableEq, Repr

/-- Embedding of `FmmDataAdaptive::upward_pass` from `fmm/src/fmm.rs` as
the sequence of operator invocations it performs: `p2m()`, then
`m2m(level)` for `level in (1..=depth).rev()`.  Both match arms (timing
on and off) perform the same invocations in the same order. -/
def upward_pass_ops (depth : ℕ) : List FmmOp :=
  FmmOp.p2m :: (List.range depth).map (fun i => FmmOp.m2m (depth - i))

/-- Embedding of `FmmDataAdaptive::downward_pass` from `fmm/src/fmm.rs`
as the sequence of operator invocations it performs.  The two match arms
differ: with timing on, each level runs `l2l` (if `level > 2`), `p2l`,
`m2l`; with timing off, each level runs `l2l` (if `level > 2`), `m2l`,
`p2l`.  Both end with `m2p`, `p2p`, `l2p`. -/
def downward_pass_adaptive_ops (time : Bool) (depth : ℕ) : List FmmOp :=
  (((List.range (depth - 1)).map (fun i => i + 2)).flatMap (fun level =>
    (if 2 < level then [FmmOp.l2l level] else []) ++
    (if time then [FmmOp.p2l level, FmmOp.m2l level]
     else [FmmOp.m2l level, FmmOp.p2l level]))) ++
  [FmmOp.m2p, FmmOp.p2p, FmmOp.l2p]

/-- Embedding of `FmmDataAdaptive::run` from `fmm/src/fmm.rs` as its
operator-invocation sequence: the upward pass followed by the downward
pass. -/
def run_adaptive_ops (time : Bool) (depth : ℕ) : List FmmOp :=
  upward_pass_ops depth ++ downward_pass_adaptive_ops time depth

/-- Levels `n, n-1, …, 1`: the spec writes the M2M schedule deepest
level first. -/
def levelsDown : ℕ → List ℕ
  | 0 => []
  | n + 1 => (n + 1) :: levelsDown n

/-- Levels `a, a+1, …, a+n-1`: `n` ascending levels starting at `a`. -/
def levelsUpFrom (a : ℕ) : ℕ → List ℕ
  | 0 => []
  | n + 1 => a :: levelsUpFrom (a + 1) n

/-- The total order claimed by the specification for the adaptive driver
(spec §5 "Ordering guarantees" and §4.H), stated from the spec's words:
P2M, M2M deepest→1, then per ascending level L2L (only for `L > 2`)
followed by P2L followed by M2L, then M2P, P2P, L2P. -/
def claimed_schedule (depth : ℕ) : List FmmOp :=
  [FmmOp.p2m] ++ (levelsDown depth).map FmmOp.m2m ++
  (levelsUpFrom 2 (depth - 1)).flatMap (fun level =>
    (if 2 < level then [FmmOp.l2l level] else []) ++
    [FmmOp.p2l level, FmmOp.m2l level]) ++
  [FmmOp.m2p, FmmOp.p2p, FmmOp.l2p]

/-- The claimed schedule amended at one point: within each level the
untimed driver branch runs M2L before P2L. -/
def claimed_schedule_untimed (depth : ℕ) : List FmmOp :=
  [FmmOp.p2m] ++ (levelsDown depth).map FmmOp.m2m ++
  (levelsUpFrom 2 (depth - 1)).flatMap (fun level =>
    (if 2 < level then [FmmOp.l2l level] else []) ++
    [FmmOp.m2l level, FmmOp.p2l level]) ++
  [FmmOp.m2p, FmmOp.p2p, FmmOp.l2p]

lemma levelsDown_eq (n : ℕ) :
    levelsDown n = (List.range n).map (fun i => n - i) := by
  induction n with
  | zero => rfl
  | succ n ih =>
    rw [levelsDown, List.range_succ_eq_map, List.map_cons, List.map_map]
    have hf : ((fun i => n + 1 - i) ∘ Nat.succ) = fun i => n - i := by
      funext i
      simp [Nat.succ_sub_succ]
    rw [hf, ← ih, Nat.sub_zero]

lemma levelsUpFrom_eq (a n : ℕ) :
    levelsUpFrom a n = (List.range n).map (fun i => i + a) := by
  induction n generalizing a with
  | zero => rfl
  | succ n ih =>
    rw [levelsUpFrom, List.range_succ_eq_map, List.map_cons, List.map_map]
    have hf : ((fun i => i + a) ∘ Nat.succ) = fun i => i + (a + 1) := by
      funext i
      simp only [Function.comp_apply, Nat.succ_eq_add_one]
      omega
    rw [hf, ← ih, Nat.zero_add]

/-- C2 counterexample: at depth 3 with the timing flag off, the adaptive
driver's operator order is not the claimed one (it runs M2L before P2L
within each level). -/
theorem run_schedule_counterexample :
    run_adaptive_ops false 3 ≠ claimed_schedule 3 := by
  decide

/-- C2 amended: the driver follows the claimed total order when timing is
enabled; with timing disabled it follows the same order except that
within each level M2L precedes P2L. -/
theorem run_schedule_amended (depth : ℕ) (time : Bool) :
    run_adaptive_ops time depth =
      if time then claimed_schedule depth else claimed_schedule_untimed depth := by
  cases time <;>
    simp [run_adaptive_ops, upward_pass_ops, downward_pass_adaptive_ops,
      claimed_schedule, claimed_schedule_untimed, levelsDown_eq, levelsUpFrom_eq,
      List.map_map, Function.comp]

/-- A timing dictionary: elapsed milliseconds keyed by operator name.
`TimeDict` in the source is a `HashMap`; since each pass inserts each key
once, an association list models it and list append models the
`HashMap::extend` union. -/
abbrev TimeDict : Type := List (String × ℕ)

/-- Embedding of the timing behaviour of `FmmDataAdaptive::upward_pass`
(`fmm/src/fmm.rs`): with timing on it returns a dictionary with the
elapsed times of `p2m` and of the whole `m2m` loop; otherwise `None`.
Wall-clock durations are abstracted into the environment `elapsed`. -/
def upward_pass_adaptive_times (time : Bool) (elapsed : String → ℕ) :
    Option TimeDict :=
  if time then some [("p2m", elapsed "p2m"), ("m2m", elapsed "m2m")] else none

/-- Embedding of the timing behaviour of
`FmmDataAdaptive::downward_pass` (`fmm/src/fmm.rs`). -/
def downward_pass_adaptive_times (time : Bool) (elapsed : String → ℕ) :
    Option TimeDict :=
  if time then
    some [("l2l", elapsed "l2l"), ("m2l", elapsed "m2l"),
      ("p2l", elapsed "p2l"), ("m2p", elapsed "m2p"),
      ("p2p", elapsed "p2p"), ("l2p", elapsed "l2p")]
  else none

/-- Embedding of `FmmDataAdaptive::run` (`fmm/src/fmm.rs`): runs both
passes and merges their dictionaries (`t1.extend(t2)`) when both are
present. -/
def run_adaptive_times (time : Bool) (elapsed : String → ℕ) :
    Option TimeDict :=
  match upward_pass_adaptive_times time elapsed,
      downward_pass_adaptive_times time elapsed with
  | some t1, some t2 => some (t1 ++ t2)
  | _, _ => none

/-- Embedding of the timing behaviour of `FmmDataUniform::upward_pass`
(`fmm/src/fmm.rs`). -/
def upward_pass_uniform_times (time : Bool) (elapsed : String → ℕ) :
    Option TimeDict :=
  if time then some [("p2m", elapsed "p2m"), ("m2m", elapsed "m2m")] else none

/-- Embedding of the timing behaviour of `FmmDataUniform::downward_pass`
(`fmm/src/fmm.rs`): the uniform variant has no `p2l` or `m2p`. -/
def downward_pass_uniform_times (time : Bool) (elapsed : String → ℕ) :
    Option TimeDict :=
  if time then
    some [("l2l", elapsed "l2l"), ("m2l", elapsed "m2l"),
      ("p2p", elapsed "p2p"), ("l2p", elapsed "l2p")]
  else none

/-- Embedding of `FmmDataUniform::run` (`fmm/src/fmm.rs`). -/
def run_uniform_times (time : Bool) (elapsed : String → ℕ) :
    Option TimeDict :=
  match upward_pass_uniform_times time elapsed,
      downward_pass_uniform_times time elapsed with
  | some t1, some t2 => some (t1 ++ t2)
  | _, _ => none

/-- C6: for both the adaptive and the uniform FMM, `run(false)` returns
`None`, and `run(true)` returns `Some` of the union (the two key sets are
disjoint, so appending the association lists is the map union) of the
upward-pass and downward-pass timing dictionaries. -/
theorem run_timing_spec (elapsed : String → ℕ) :
    (run_adaptive_times false elapsed = none ∧
      run_uniform_times false elapsed = none) ∧
    (∀ t1 t2, upward_pass_adaptive_times true elapsed = some t1 →
      downward_pass_adaptive_times true elapsed = some t2 →
      run_adaptive_times true elapsed = some (t1 ++ t2)) ∧
    (∀ t1 t2, upward_pass_uniform_times true elapsed = some t1 →
      downward_pass_uniform_times true elapsed = some t2 →
      run_uniform_times true elapsed = some (t1 ++ t2)) := by
  refine ⟨⟨rfl, rfl⟩, ?_, ?_⟩ <;>
  · intro t1 t2 h1 h2
    simp only [run_adaptive_times, run_uniform_times, h1, h2]

/-- Modelled from the spec (§3 "Domain"): an axis-aligned bounding box
given by an origin and a side-length per axis; `Domain::from_local_points`
and `Domain::union` live in the tree crate's single-node sources, which
are not among the provided files. -/
structure Domain where
  origin : ℚ × ℚ × ℚ
  diameter : ℚ × ℚ × ℚ
deriving DecidableEq, Repr

/-- Group a flat coordinate buffer `[x0, y0, z0, x1, …]` into points. -/
def toTriples : List ℚ → List (ℚ × ℚ × ℚ)
  | x :: y :: z :: rest => (x, y, z) :: toTriples rest
  | _ => []

/-- Modelled from the spec: the bounding box of a point set, by
componentwise min/max over the coordinates. -/
def Domain.from_local_points (points : List ℚ) : Domain :=
  match toTriples points with
  | [] => ⟨(0, 0, 0), (0, 0, 0)⟩
  | t :: ts =>
    let lo := ts.foldl
      (fun a b => (min a.1 b.1, min a.2.1 b.2.1, min a.2.2 b.2.2)) t
    let hi := ts.foldl
      (fun a b => (max a.1 b.1, max a.2.1 b.2.1, max a.2.2 b.2.2)) t
    ⟨lo, (hi.1 - lo.1, hi.2.1 - lo.2.1, hi.2.2 - lo.2.2)⟩

/-- Modelled from the spec: the union of two bounding boxes. -/
def Domain.union (a b : Domain) : Domain :=
  let lo := (min a.origin.1 b.origin.1, min a.origin.2.1 b.origin.2.1,
    min a.origin.2.2 b.origin.2.2)
  let ahi := (a.origin.1 + a.diameter.1, a.origin.2.1 + a.diameter.2.1,
    a.origin.2.2 + a.diameter.2.2)
  let bhi := (b.origin.1 + b.diameter.1, b.origin.2.1 + b.diameter.2.1,
    b.origin.2.2 + b.diameter.2.2)
  let hi := (max ahi.1 bhi.1, max ahi.2.1 bhi.2.1, max ahi.2.2 bhi.2.2)
  ⟨lo, (hi.1 - lo.1, hi.2.1 - lo.2.1, hi.2.2 - lo.2.2)⟩

/-- Modelled from the spec: `SingleNodeTreeNew::new(points, n_crit,
sparse, domain)` builds the octree over its input point set; the octree
builder itself is outside the provided sources, and claim C8 concerns
only which input point set each tree was constructed from, so the model
records the construction inputs. -/
structure SingleNodeTreeNew where
  points : List ℚ
  n_crit : Option ℕ
  sparse : Option Bool
  domain : Option Domain
deriving DecidableEq, Repr

/-- Constructor wrapper mirroring `SingleNodeTreeNew::new`. -/
def SingleNodeTreeNew.new (points : List ℚ) (n_crit : Option ℕ)
    (sparse : Option Bool) (domain : Option Domain) : SingleNodeTreeNew :=
  ⟨points, n_crit, sparse, domain⟩

/-- Model of `SingleNodeFmmTree` from `fmm/src/new_types.rs`. -/
structure SingleNodeFmmTree where
  source_tree : SingleNodeTreeNew
  target_tree : SingleNodeTreeNew
  domain : Domain
deriving DecidableEq, Repr

/-- Embedding of `get_source_tree` from the `FmmTree` impl for
`SingleNodeFmmTree` (fmm/src/new_types.rs lines 157-159): it returns the
`target_tree` field. -/
def get_source_tree (t : SingleNodeFmmTree) : SingleNodeTreeNew :=
  t.target_tree

/-- Embedding of `get_target_tree` from the `FmmTree` impl for
`SingleNodeFmmTree` (fmm/src/new_types.rs lines 161-163): it returns the
`source_tree` field. -/
def get_target_tree (t : SingleNodeFmmTree) : SingleNodeTreeNew :=
  t.source_tree

/-- Embedding of `KiFmmBuilderSingleNode::tree` (fmm/src/new_types.rs
lines 195-221): computes the union of the source and target bounding
boxes and builds `source_tree` from `sources` and `target_tree` from
`targets`, both over the union domain. -/
def builder_tree (sources targets : List ℚ) (n_crit : Option ℕ)
    (sparse : Option Bool) : SingleNodeFmmTree :=
  let source_domain := Domain.from_local_points sources
  let target_domain := Domain.from_local_points targets
  let domain := source_domain.union target_domain
  let source_tree := SingleNodeTreeNew.new sources n_crit sparse (some domain)
  let target_tree := SingleNodeTreeNew.new targets n_crit sparse (some domain)
  ⟨source_tree, target_tree, domain⟩

/-- C8: on a tree built by `KiFmmBuilderSingleNode::tree(sources,
targets, …)`, `get_source_tree` returns the octree constructed from the
target point set and `get_target_tree` the octree constructed from the
source point set. -/
theorem tree_accessors_swapped (sources targets : List ℚ)
    (n_crit : Option ℕ) (sparse : Option Bool) :
    get_source_tree (builder_tree sources targets n_crit sparse) =
      SingleNodeTreeNew.new targets n_crit sparse
        (some ((Domain.from_local_points sources).union
          (Domain.from_local_points targets))) ∧
    get_target_tree (builder_tree sources targets n_crit sparse) =
      SingleNodeTreeNew.new sources n_crit sparse
        (some ((Domain.from_local_points sources).union
          (Domain.from_local_points targets))) ∧
    (get_source_tree (builder_tree sources targets n_crit sparse)).points =
      targets ∧
    (get_target_tree (builder_tree sources targets n_crit sparse)).points =
      sources :=
  ⟨rfl, rfl, rfl, rfl⟩

/-- Modelled from the spec (§3, §4.A): a Morton key is a tree level
together with the box's integer grid coordinates at that level.  The
spec's anchor stores the coordinates in deepest-level units (multiples of
the box diameter); dividing by the diameter gives this equivalent
parametrisation, on which `parent`, `children` and `neighbours` act as
the spec describes. -/
structure MortonKey where
  level : ℕ
  x : ℕ
  y : ℕ
  z : ℕ
deriving DecidableEq, Repr

/-- Modelled from the spec: `parent` halves the grid coordinates and
decrements the level. -/
def MortonKey.parent (k : MortonKey) : MortonKey :=
  ⟨k.level - 1, k.x / 2, k.y / 2, k.z / 2⟩

/-- Modelled from the spec: `children` doubles the grid coordinates, sets
each of the 8 lowest-bit combinations and increments the level. -/
def MortonKey.children (k : MortonKey) : List MortonKey :=
  [0, 1].flatMap (fun dx => [0, 1].flatMap (fun dy => [0, 1].map (fun dz =>
    ⟨k.level + 1, 2 * k.x + dx, 2 * k.y + dy, 2 * k.z + dz⟩)))

/-- The 26 non-zero offsets in `{-1,0,1}³`. -/
def neighborOffsets : List (ℤ × ℤ × ℤ) :=
  ([-1, 0, 1].flatMap (fun a => [-1, 0, 1].flatMap (fun b =>
    [-1, 0, 1].map (fun c => (a, b, c))))).filter (fun t => t ≠ (0, 0, 0))

/-- Modelled from the spec: `neighbours` enumerates the up-to-26 adjacent
boxes at the same level by perturbing the grid coordinates by ±1 in each
axis, keeping the ones inside the `[0, 2^level)³` grid. -/
def MortonKey.neighbors (k : MortonKey) : List MortonKey :=
  neighborOffsets.filterMap (fun t =>
    let nx : ℤ := (k.x : ℤ) + t.1
    let ny : ℤ := (k.y : ℤ) + t.2.1
    let nz : ℤ := (k.z : ℤ) + t.2.2
    if 0 ≤ nx ∧ nx < 2 ^ k.level ∧ 0 ≤ ny ∧ ny < 2 ^ k.level ∧
        0 ≤ nz ∧ nz < 2 ^ k.level then
      some ⟨k.level, nx.toNat, ny.toNat, nz.toNat⟩
    else none)

/-- The ancestor of a key at a coarser level (identity at the key's own
level). -/
def MortonKey.ancestorAtLevel (k : MortonKey) (l : ℕ) : MortonKey :=
  ⟨l, k.x / 2 ^ (k.level - l), k.y / 2 ^ (k.level - l), k.z / 2 ^ (k.level - l)⟩

/-- Two keys overlap when one is an ancestor of the other or they are
equal; overlapping boxes are never adjacent (the spec compares ancestors
after lifting). -/
def MortonKey.overlaps (a b : MortonKey) : Bool :=
  (decide (a.level ≤ b.level) && decide (b.ancestorAtLevel a.level = a)) ||
  (decide (b.level ≤ a.level) && decide (a.ancestorAtLevel b.level = b))

/-- One axis of the box-touching test, with both boxes lifted to a common
resolution: the closed intervals `[c·d, c·d + d]` intersect. -/
def axisTouch (da db ca cb : ℕ) : Bool :=
  decide (ca * da ≤ cb * db + db) && decide (cb * db ≤ ca * da + da)

/-- Modelled from the spec: `is_adjacent` tests integer face/edge/vertex
touching of the two boxes at a shared level (each box's closed extent is
compared at the finer of the two levels); overlapping keys are not
adjacent. -/
def MortonKey.is_adjacent (a b : MortonKey) : Bool :=
  if a.overlaps b then false
  else
    let resolution := max a.level b.level
    let da := 2 ^ (resolution - a.level)
    let db := 2 ^ (resolution - b.level)
    axisTouch da db a.x b.x && axisTouch da db a.y b.y && axisTouch da db a.z b.z

lemma MortonKey.overlaps_self (k : MortonKey) : k.overlaps k = true := by
  cases k
  simp [MortonKey.overlaps, MortonKey.ancestorAtLevel]

lemma MortonKey.is_adjacent_self (k : MortonKey) : k.is_adjacent k = false := by
  simp [MortonKey.is_adjacent, MortonKey.overlaps_self]

/-- Embedding of `get_interaction_list` from
`tree/src/implementations/impl_multi_node.rs` (lines 503-519): for a key
at level ≥ 2, the children of the key's parent's neighbours that pass the
`is_adjacent` filter (the filter in the source keeps the adjacent ones);
`None` below level 2. -/
def get_interaction_list (key : MortonKey) : Option (List MortonKey) :=
  if 2 ≤ key.level then
    some (((key.parent.neighbors).flatMap MortonKey.children).filter
      (fun pnc => key.is_adjacent pnc))
  else none

/-- The V list as claim C1 (and spec §4.C) states it: the children of the
key's parent's neighbours that are NOT adjacent to the key. -/
def claimed_v_list (key : MortonKey) : List MortonKey :=
  ((key.parent.neighbors).flatMap MortonKey.children).filter
    (fun pnc => !key.is_adjacent pnc)

/-- Embedding of `get_near_field` from
`tree/src/implementations/impl_multi_node.rs` (lines 467-500): adjacent
children of neighbours, then adjacent neighbours, then adjacent parents
of neighbours; the leaf itself is never pushed. -/
def get_near_field (leaf : MortonKey) : List MortonKey :=
  let neighbours := leaf.neighbors
  let neighbors_children_adj :=
    (neighbours.flatMap MortonKey.children).filter
      (fun nc => leaf.is_adjacent nc)
  let neighbors_adj := neighbours.filter (fun n => leaf.is_adjacent n)
  let neighbors_parents_adj :=
    (neighbours.map MortonKey.parent).filter (fun np => leaf.is_adjacent np)
  neighbors_children_adj ++ neighbors_adj ++ neighbors_parents_adj

/-- The U list as claim C5 (and spec §4.C) states it: the leaf itself,
its adjacent same-level neighbours, the adjacent children of its
neighbours and the adjacent parents of its neighbours. -/
def claimed_u_list (leaf : MortonKey) : List MortonKey :=
  leaf ::
    (leaf.neighbors.filter (fun n => leaf.is_adjacent n) ++
      ((leaf.neighbors.flatMap MortonKey.children).filter
        (fun nc => leaf.is_adjacent nc)) ++
      ((leaf.neighbors.map MortonKey.parent).filter
        (fun np => leaf.is_adjacent np)))

/-- C1, evaluated at the failing input: for the level-2 key with grid
coordinates (0,0,0) the source's V list is empty — the filter keeps the
*adjacent* children of the parent's neighbours and none of the 56
candidates is adjacent to this corner key — whereas the claimed V list
consists of all 56 non-adjacent candidates. -/
theorem get_interaction_list_failing :
    get_interaction_list ⟨2, 0, 0, 0⟩ = some [] ∧
    (claimed_v_list ⟨2, 0, 0, 0⟩).length = 56 := by
  constructor
  · decide
  · decide

/-- C5 counterexample: at the level-2 key with grid coordinates (0,0,0),
the near-field list returned by the source differs as a set from the
claimed U list — the claimed list contains the leaf itself, the source's
never does. -/
theorem get_near_field_counterexample :
    (get_near_field ⟨2, 0, 0, 0⟩).toFinset ≠
      (claimed_u_list ⟨2, 0, 0, 0⟩).toFinset := by
  decide

/-- C5 amended: the near-field list equals, as a set, the union of the
adjacent same-level neighbours, the adjacent children of neighbours and
the adjacent parents of neighbours — without the leaf itself, which is
never an element. -/
theorem get_near_field_amended (leaf : MortonKey) :
    (get_near_field leaf).toFinset =
      (leaf.neighbors.filter (fun n => leaf.is_adjacent n)).toFinset ∪
      ((leaf.neighbors.flatMap MortonKey.children).filter
        (fun nc => leaf.is_adjacent nc)).toFinset ∪
      ((leaf.neighbors.map MortonKey.parent).filter
        (fun np => leaf.is_adjacent np)).toFinset ∧
    leaf ∉ get_near_field leaf := by
  constructor
  · ext a
    simp only [get_near_field, List.toFinset_append, Finset.mem_union,
      List.mem_toFinset]
    tauto
  · intro hmem
    simp only [get_near_field, List.mem_append, List.mem_filter] at hmem
    rcases hmem with (⟨_, h⟩ | ⟨_, h⟩) | ⟨_, h⟩ <;>
      simp [MortonKey.is_adjacent_self] at h

/-- A point in three-dimensional space, modelled rationally. -/
abbrev Point3 : Type := ℚ × ℚ × ℚ

/-- Embedding of the check-potential computation inside
`SourceTranslation::p2m` (fmm/src/field_translation.rs lines 94-103):
`kernel.evaluate_st(EvalType::Value, coords, surface, charges, out)`
writes, at each point of the upward check surface, the kernel sum over
the leaf's charged points. -/
def check_potential {nc : ℕ} (kernel : Point3 → Point3 → ℚ)
    (pts : List (Point3 × ℚ)) (surface : Fin nc → Point3) : Fin nc → ℚ :=
  fun i => (pts.map (fun pq => kernel pq.1 (surface i) * pq.2)).sum

/-- Embedding of the per-leaf body of `SourceTranslation::p2m`
(fmm/src/field_translation.rs lines 57-116): a leaf holding points gets
`scale(level) * uc2e_inv * check_potential` accumulated into its
multipole slot, a leaf without points is skipped, and no other slot is
written.  The kernel, the stored inverse `uc2e_inv` and the surface map
are the `KiFmm` metadata, supplied here as parameters; per the spec the
stored inverse is the product of the two pseudo-inverse factors
`uc2e_inv_1 · uc2e_inv_2` (see `p2m_spec`). -/
def p2m_leaf {nc : ℕ} (kernel : Point3 → Point3 → ℚ)
    (uc2e_inv : Matrix (Fin nc) (Fin nc) ℚ) (scale : ℕ → ℚ)
    (upward_check_surface : MortonKey → Fin nc → Point3)
    (points : MortonKey → Option (List (Point3 × ℚ)))
    (multipoles : MortonKey → Fin nc → ℚ) (leaf : MortonKey) :
    MortonKey → Fin nc → ℚ :=
  match points leaf with
  | none => multipoles
  | some pts => fun k =>
      if k = leaf then
        fun i => multipoles leaf i +
          scale leaf.level *
            uc2e_inv.mulVec
              (check_potential kernel pts (upward_check_surface leaf)) i
      else multipoles k

/-- C3: for a leaf holding charges q at coordinates x, one application of
P2M adds to the leaf's multipole exactly
`scale(level) * uc2e_inv_1 * uc2e_inv_2 * φ_ck` with
`φ_ck = kernel(x → upward check surface) · q`, and changes no other
box's multipole. -/
theorem p2m_spec {nc : ℕ} (kernel : Point3 → Point3 → ℚ)
    (uc2e_inv uc2e_inv_1 uc2e_inv_2 : Matrix (Fin nc) (Fin nc) ℚ)
    (scale : ℕ → ℚ) (surf : MortonKey → Fin nc → Point3)
    (points : MortonKey → Option (List (Point3 × ℚ)))
    (multipoles : MortonKey → Fin nc → ℚ) (leaf : MortonKey)
    (pts : List (Point3 × ℚ)) (hpts : points leaf = some pts)
    (hinv : uc2e_inv = uc2e_inv_1 * uc2e_inv_2) :
    (p2m_leaf kernel uc2e_inv scale surf points multipoles leaf) leaf =
      (fun i => multipoles leaf i +
        scale leaf.level *
          (uc2e_inv_1 * uc2e_inv_2).mulVec
            (check_potential kernel pts (surf leaf)) i) ∧
    ∀ k, k ≠ leaf →
      (p2m_leaf kernel uc2e_inv scale surf points multipoles leaf) k =
        multipoles k := by
  subst hinv
  constructor
  · simp [p2m_leaf, hpts]
  · intro k hk
    simp [p2m_leaf, hpts, hk]

/-- Concrete point table used to witness `p2m_spec`. -/
def p2mW_points : MortonKey → Option (List (Point3 × ℚ)) :=
  fun k => if k = ⟨0, 0, 0, 0⟩ then some [((0, 0, 0), 1)] else none

theorem p2m_spec_witness :
    p2mW_points ⟨0, 0, 0, 0⟩ = some [((0, 0, 0), 1)] ∧
    ((1 : Matrix (Fin 1) (Fin 1) ℚ) = 1 * 1) ∧
    ((p2m_leaf (fun _ _ => 1) (1 : Matrix (Fin 1) (Fin 1) ℚ) (fun _ => 1)
        (fun _ _ => (0, 0, 0)) p2mW_points (fun _ _ => 0) ⟨0, 0, 0, 0⟩)
          ⟨0, 0, 0, 0⟩ =
        (fun i => (fun (_ : MortonKey) (_ : Fin 1) => (0 : ℚ)) ⟨0, 0, 0, 0⟩ i +
          (fun (_ : ℕ) => (1 : ℚ)) (MortonKey.level ⟨0, 0, 0, 0⟩) *
            ((1 : Matrix (Fin 1) (Fin 1) ℚ) * 1).mulVec
              (check_potential (fun _ _ => 1) [((0, 0, 0), 1)]
                ((fun _ _ => ((0 : ℚ), (0 : ℚ), (0 : ℚ))) (⟨0, 0, 0, 0⟩ : MortonKey))) i) ∧
      ∀ k, k ≠ (⟨0, 0, 0, 0⟩ : MortonKey) →
        (p2m_leaf (fun _ _ => 1) (1 : Matrix (Fin 1) (Fin 1) ℚ) (fun _ => 1)
          (fun _ _ => (0, 0, 0)) p2mW_points (fun _ _ => 0) ⟨0, 0, 0, 0⟩) k =
          (fun (_ : MortonKey) (_ : Fin 1) => (0 : ℚ)) k) :=
  ⟨by simp [p2mW_points], (one_mul 1).symm,
    p2m_spec (fun _ _ => 1) 1 1 1 (fun _ => 1) (fun _ _ => (0, 0, 0))
      p2mW_points (fun _ _ => 0) ⟨0, 0, 0, 0⟩ [((0, 0, 0), 1)]
      (by simp [p2mW_points]) (one_mul 1).symm⟩
